import Mathlib

/-!
# TerratestLogViewer — verified model of the log-filtering core

Shallow embedding of the pure log-processing functions of the
TerratestLogViewer repository.  Buffers (Go `[]byte`) are modelled as
`List Char`; the byte values appearing in the logs are ASCII, so this is a
faithful rendering of the byte-level algorithms.

Two variants of the filtering code appear in the sources:

* `src/main.go` — the historical variant: `filterLogs` matches only the
  test-name prefix, and its `hasPrefix` performs **no bounds check**
  (`str[offset+j]` can index past the end of the buffer, which in Go is a
  runtime panic).  Functions of this variant are suffixed `Main` here and
  return `Option` results, `none` modelling the panic.
* the program text embedded in `src/README.md` — the superset variant:
  `filterLogs` additionally matches the `"=== NAME  "` failure-report
  header, `hasPrefix` is bounds-checked, and `removeTestNamePrefix` is
  present.  These carry the Go names unchanged.

Go's index-bounded `for` loops are rendered as fuel-indexed structural
recursions; the wrappers pass `logs.length` fuel, which is always
sufficient because every iteration advances the index by at least one
(this adequacy is part of the bridge lemmas proved below), and keeps every
definition computable by the kernel.
-/

/-- Index of the first element of `s` satisfying `p`, if any
(helper for `findNext` and for splitting buffers into lines; it mirrors
the linear scans performed by the Go loops). -/
def findIdxFrom (p : Char → Bool) : List Char → Option Nat
  | [] => none
  | c :: rest => if p c then some 0 else (findIdxFrom p rest).map (fun j => j + 1)

/-- Go `findNext` (identical in `src/main.go` and the `src/README.md` text):
returns the index of the next occurrence of `test` at or after `offset`, or
`len(str) - 1` if there is none.  (In Go the no-occurrence result on an empty
buffer is `-1`; every call site in the source runs under a `i < len(logs)`
loop guard, so `str` is nonempty at every reachable call and the `Nat`
truncation `0 - 1 = 0` is never observed.) -/
def findNext (str : List Char) (offset : Nat) (test : Char) : Nat :=
  match findIdxFrom (fun c => decide (c = test)) (str.drop offset) with
  | some j => offset + j
  | none => str.length - 1

/-- Go slice expression `str[a:b]`.  The Go runtime requires `a ≤ b ≤ len(str)`; at every
use below except the one in `removeTestNamePrefix` these bounds always hold
(see `findNext_ge` / `findNext_lt`), so the total rendering is faithful. -/
def goSlice (str : List Char) (a b : Nat) : List Char :=
  (str.drop a).take (b - a)

/-- Go slice expression `str[a:b]` with the runtime bounds check made
explicit: `none` models the Go panic `slice bounds out of range`. -/
def goSliceChecked (str : List Char) (a b : Nat) : Option (List Char) :=
  if a ≤ b ∧ b ≤ str.length then some (goSlice str a b) else none

/-- Go `hasPrefix` of the `src/README.md` text (bounds-checked):
`for i := 0; i < len(prefix); i++ { if offset+i >= len(str) || str[offset+i] != prefix[i] { return false } }`. -/
def hasPrefix : List Char → Nat → List Char → Bool
  | _, _, [] => true
  | str, offset, p :: rest =>
    match str[offset]? with
    | none => false
    | some c => if c = p then hasPrefix str (offset + 1) rest else false

/-- Go `hasPrefix` of `src/main.go` (NO bounds check):
`for j := 0; j < len(prefix); j++ { if str[offset+j] != prefix[j] { return false } }`.
When `offset+j` is past the end of the buffer Go panics with
`index out of range`; the panic is modelled by `none`. -/
def hasPrefixMain : List Char → Nat → List Char → Option Bool
  | _, _, [] => some true
  | str, offset, p :: rest =>
    match str[offset]? with
    | none => none
    | some c => if c = p then hasPrefixMain str (offset + 1) rest else some false

/-- Go `var testFailurePrefix = []byte("=== NAME  ")` (README.md text). -/
def testFailurePrefix : List Char := "=== NAME  ".data

/-- Go `hasTestFailurePrefix` (README.md text): the buffer has, at `offset`,
the failure-report header immediately followed by the test name. -/
def hasTestFailurePrefix (str : List Char) (offset : Nat) (testName : List Char) : Bool :=
  hasPrefix str offset testFailurePrefix &&
    hasPrefix str (offset + testFailurePrefix.length) testName

/-- Loop body of Go `removeTimestampPrefix` (identical in both variants),
fuel-indexed; `i` is the Go loop variable. -/
def removeTimestampPrefixLoop (logs : List Char) : Nat → Nat → List Char
  | 0, _ => []
  | fuel + 1, i =>
    if i ≥ logs.length then []
    else
      let endOfTimestampIdx := findNext logs i ' '
      let endOfLineIdx := findNext logs (endOfTimestampIdx + 1) '\n'
      goSlice logs (endOfTimestampIdx + 1) (endOfLineIdx + 1) ++
        removeTimestampPrefixLoop logs fuel (endOfLineIdx + 1)

/-- Go `removeTimestampPrefix`: removes the timestamp prefix from each line. -/
def removeTimestampPrefix (logs : List Char) : List Char :=
  removeTimestampPrefixLoop logs logs.length 0

/-- Loop body of Go `filterLogs` from the `src/README.md` text (the superset
variant), fuel-indexed.  `prior` is the Go `priorLineMatchedPrefix` state. -/
def filterLogsLoop (logs testName : List Char) : Nat → Nat → Bool → List Char
  | 0, _, _ => []
  | fuel + 1, i, prior =>
    if i ≥ logs.length then []
    else
      let endOfLineIdx := findNext logs i '\n'
      if hasPrefix logs i testName || hasTestFailurePrefix logs i testName then
        goSlice logs i (endOfLineIdx + 1) ++
          filterLogsLoop logs testName fuel (endOfLineIdx + 1) true
      else if prior then
        if hasPrefix logs i ("Test".data) then
          filterLogsLoop logs testName fuel (endOfLineIdx + 1) false
        else
          goSlice logs i (endOfLineIdx + 1) ++
            filterLogsLoop logs testName fuel (endOfLineIdx + 1) prior
      else
        filterLogsLoop logs testName fuel (endOfLineIdx + 1) prior

/-- Go `filterLogs` of the `src/README.md` text: keeps the lines that begin
with the test name or with the failure-report header plus the test name,
extends the selection over continuation lines, and returns a nil error. -/
def filterLogs (logs testName : List Char) : List Char × Option String :=
  (filterLogsLoop logs testName logs.length 0 false, none)

/-- Loop body of Go `filterLogs` from `src/main.go` (the historical variant),
fuel-indexed.  It uses the unchecked `hasPrefixMain`, so the whole loop can
panic (`none`). -/
def filterLogsMainLoop (logs testName : List Char) : Nat → Nat → Bool → Option (List Char)
  | 0, _, _ => some []
  | fuel + 1, i, prior =>
    if i ≥ logs.length then some []
    else
      let endOfLineIdx := findNext logs i '\n'
      match hasPrefixMain logs i testName with
      | none => none
      | some b =>
        if b then
          (filterLogsMainLoop logs testName fuel (endOfLineIdx + 1) true).map
            (fun rest => goSlice logs i (endOfLineIdx + 1) ++ rest)
        else if prior then
          match hasPrefixMain logs i ("Test".data) with
          | none => none
          | some bt =>
            if bt then filterLogsMainLoop logs testName fuel (endOfLineIdx + 1) false
            else
              (filterLogsMainLoop logs testName fuel (endOfLineIdx + 1) prior).map
                (fun rest => goSlice logs i (endOfLineIdx + 1) ++ rest)
        else
          filterLogsMainLoop logs testName fuel (endOfLineIdx + 1) prior

/-- Go `filterLogs` of `src/main.go`: matches only the test-name prefix, with
the unchecked `hasPrefix`.  `none` models an out-of-bounds panic; a normal
return carries the filtered buffer and the (always nil) error. -/
def filterLogsMain (logs testName : List Char) : Option (List Char × Option String) :=
  (filterLogsMainLoop logs testName logs.length 0 false).map (fun r => (r, none))

/-- Loop body of Go `removeTestNamePrefix` (README.md text), fuel-indexed.
The slice `logs[endOfPrefixIdx : endOfLineIdx+1]` carries Go's runtime bounds
check (it genuinely panics when a final unterminated line equals the test
name), hence the `Option`. -/
def removeTestNamePrefixLoop (logs testName : List Char) : Nat → Nat → Option (List Char)
  | 0, _ => some []
  | fuel + 1, i =>
    if i ≥ logs.length then some []
    else
      let endOfLineIdx := findNext logs i '\n'
      if hasPrefix logs i testName then
        let endOfPrefixIdx := i + testName.length + 1
        match goSliceChecked logs endOfPrefixIdx (endOfLineIdx + 1) with
        | none => none
        | some line =>
          (removeTestNamePrefixLoop logs testName fuel (endOfLineIdx + 1)).map
            (fun rest => line ++ rest)
      else
        (removeTestNamePrefixLoop logs testName fuel (endOfLineIdx + 1)).map
          (fun rest => goSlice logs i (endOfLineIdx + 1) ++ rest)

/-- Go `removeTestNamePrefix` (README.md text): removes the test name plus the
one following byte from the start of each line that begins with it. -/
def removeTestNamePrefix (logs testName : List Char) : Option (List Char) :=
  removeTestNamePrefixLoop logs testName logs.length 0

/-! ## Line decomposition

The specification-level view of a buffer: its list of lines, each line
keeping its `'\n'` terminator, the final line possibly unterminated.  This
is exactly the decomposition the Go loops traverse, which the bridge
lemmas below make precise. -/

/-- Splits a buffer into its first line (terminator included; the whole
buffer if it contains no `'\n'`) and the remainder. -/
def splitFirstLine (s : List Char) : List Char × List Char :=
  match findIdxFrom (fun c => decide (c = '\n')) s with
  | some j => (s.take (j + 1), s.drop (j + 1))
  | none => (s, [])

/-- Fuel-indexed worker for `lines`. -/
def linesLoop : Nat → List Char → List (List Char)
  | 0, _ => []
  | fuel + 1, s =>
    if s = [] then []
    else (splitFirstLine s).1 :: linesLoop fuel (splitFirstLine s).2

/-- The lines of a buffer, terminators kept, final line possibly
unterminated.  An empty buffer has no lines. -/
def lines (s : List Char) : List (List Char) :=
  linesLoop s.length s

/-- Fuel-indexed worker for `lineStarts`. -/
def lineStartsLoop : Nat → List Char → List (List Char)
  | 0, _ => []
  | fuel + 1, s =>
    if s = [] then []
    else s :: lineStartsLoop fuel (splitFirstLine s).2

/-- The suffixes of a buffer starting at each line start — the views of the
buffer on which the Go loops evaluate their prefix tests. -/
def lineStarts (s : List Char) : List (List Char) :=
  lineStartsLoop s.length s

/-! ## Per-line semantics of the filter

`runFilter` is the line-by-line reading of the README.md `filterLogs` state
machine; the bridge lemma `filterLogs_eq_runFilter` proves it equal to the
index-based loop whenever the test name contains no newline. -/

/-- A line is a direct match for `t`: it begins with `t`, or with the
failure-report header immediately followed by `t`. -/
def directMatch (t L : List Char) : Bool :=
  decide (t <+: L) || decide ((testFailurePrefix ++ t) <+: L)

/-- The line begins with the literal token `"Test"`. -/
def isTestLine (L : List Char) : Bool :=
  decide ("Test".data <+: L)

/-- Line-by-line state machine of the README.md `filterLogs`: the `Bool`
state is Go's `priorLineMatchedPrefix` (`true` = MATCHED). -/
def runFilter (t : List Char) : Bool → List (List Char) → List (List Char)
  | _, [] => []
  | st, L :: rest =>
    if directMatch t L then L :: runFilter t true rest
    else if st then
      if isTestLine L then runFilter t false rest
      else L :: runFilter t true rest
    else runFilter t false rest

/-- Per-line action of `removeTimestampPrefix`: everything strictly after the
line's first space, through its terminator. -/
def stripTimestampLine (L : List Char) : List Char :=
  (L.dropWhile (fun c => decide (c ≠ ' '))).drop 1

/-- Per-line action of `removeTestNamePrefix`: a line beginning with `t`
loses its first `t.length + 1` bytes, any other line is unchanged. -/
def stripNameLine (t L : List Char) : List Char :=
  if t <+: L then L.drop (t.length + 1) else L

/-- Modelled from the spec: the summary-line test of `parseSummary`, whose
source is absent from `src/` (only `src/main_test.go` calls it).  Spec §4.5:
a line qualifies when, immediately after any run (possibly empty) of leading
whitespace, it begins with the literal `"--- PASS:"` or `"--- FAIL:"`. -/
def summaryLine (L : List Char) : Bool :=
  let w := L.dropWhile (fun c => decide (c = ' ' ∨ c = '\t'))
  decide ("--- PASS:".data <+: w) || decide ("--- FAIL:".data <+: w)

/-- Modelled from the spec: `parseSummary`, whose source is absent from
`src/` (only `src/main_test.go` calls it).  Spec §4.5: a stateless per-line
filter retaining, verbatim and in order, exactly the summary lines. -/
def parseSummary (logs : List Char) : List Char :=
  ((lines logs).filter summaryLine).flatten

/-! ## Line-shape predicates -/

/-- A terminated line: interior bytes free of `'\n'`, final byte `'\n'`. -/
def terminatedLine (L : List Char) : Prop :=
  ∃ c, '\n' ∉ c ∧ L = c ++ ['\n']

/-- An unterminated (final) line: nonempty and free of `'\n'`. -/
def openLine (L : List Char) : Prop :=
  L ≠ [] ∧ '\n' ∉ L

/-- The shape of any list produced by `lines`: every element is a line,
every element but the last is terminated. -/
def goodLines : List (List Char) → Prop
  | [] => True
  | [L] => terminatedLine L ∨ openLine L
  | L :: rest => terminatedLine L ∧ goodLines rest


/-! ## Characterization of `findIdxFrom` -/

theorem findIdxFrom_eq_none {p : Char → Bool} {s : List Char} :
    findIdxFrom p s = none ↔ ∀ x ∈ s, p x = false := by
  induction s with
  | nil => simp [findIdxFrom]
  | cons c rest ih =>
    by_cases h : p c = true <;>
      simp [findIdxFrom, h, Option.map_eq_none', ih]

theorem findIdxFrom_eq_some {p : Char → Bool} :
    ∀ {s : List Char} {j : Nat}, findIdxFrom p s = some j →
      j < s.length ∧ p (s.getD j ' ') = true ∧ ∀ k, k < j → p (s.getD k ' ') = false := by
  intro s
  induction s with
  | nil => intro j h; simp [findIdxFrom] at h
  | cons c rest ih =>
    intro j h
    by_cases hc : p c = true
    · simp [findIdxFrom, hc] at h
      subst h
      exact ⟨by simp, by simpa using hc, by omega⟩
    · simp [findIdxFrom, hc, Option.map_eq_some'] at h
      obtain ⟨a, ha, rfl⟩ := h
      obtain ⟨h1, h2, h3⟩ := ih ha
      refine ⟨by simpa using h1, by simpa using h2, ?_⟩
      intro k hk
      cases k with
      | zero => simpa using hc
      | succ k => simpa using h3 k (by omega)

theorem findIdxFrom_eq_some_of {p : Char → Bool} :
    ∀ {s : List Char} {j : Nat}, j < s.length → p (s.getD j ' ') = true →
      (∀ k, k < j → p (s.getD k ' ') = false) → findIdxFrom p s = some j := by
  intro s
  induction s with
  | nil => intro j h; simp at h
  | cons c rest ih =>
    intro j hj hpj hbefore
    cases j with
    | zero =>
      simp only [List.getD_cons_zero] at hpj
      simp [findIdxFrom, hpj]
    | succ j =>
      have hc : p c = false := by simpa using hbefore 0 (by omega)
      have hrec := ih (by simpa using hj) (by simpa using hpj)
        (fun k hk => by simpa using hbefore (k + 1) (by omega))
      simp [findIdxFrom, hc, hrec]

/-! ## Basic facts about `splitFirstLine` -/

theorem splitFirstLine_fst_append_snd (s : List Char) :
    (splitFirstLine s).1 ++ (splitFirstLine s).2 = s := by
  unfold splitFirstLine
  cases h : findIdxFrom (fun c => decide (c = '\n')) s with
  | some j => simp [List.take_append_drop]
  | none => simp

theorem splitFirstLine_fst_isPrefix (s : List Char) :
    (splitFirstLine s).1 <+: s :=
  ⟨(splitFirstLine s).2, splitFirstLine_fst_append_snd s⟩

theorem splitFirstLine_nil : splitFirstLine [] = ([], []) := by
  simp [splitFirstLine, findIdxFrom]

theorem splitFirstLine_fst_ne_nil {s : List Char} (hs : s ≠ []) :
    (splitFirstLine s).1 ≠ [] := by
  unfold splitFirstLine
  cases h : findIdxFrom (fun c => decide (c = '\n')) s with
  | some j =>
    have := (findIdxFrom_eq_some h).1
    simp only
    intro hcon
    rw [List.take_eq_nil_iff] at hcon
    rcases hcon with h1 | h1
    · exact absurd h1 (by omega)
    · exact hs h1
  | none => simpa using hs

theorem splitFirstLine_snd_length_lt {s : List Char} (hs : s ≠ []) :
    (splitFirstLine s).2.length < s.length := by
  unfold splitFirstLine
  cases h : findIdxFrom (fun c => decide (c = '\n')) s with
  | some j =>
    have := (findIdxFrom_eq_some h).1
    simp only [List.length_drop]
    omega
  | none =>
    simp only [List.length_nil]
    exact List.length_pos.mpr hs

theorem findIdxFrom_append_of {p : Char → Bool} :
    ∀ (c : List Char) (a : Char) (r : List Char), (∀ x ∈ c, p x = false) → p a = true →
      findIdxFrom p (c ++ a :: r) = some c.length := by
  intro c
  induction c with
  | nil => intro a r _ ha; simp [findIdxFrom, ha]
  | cons b c ih =>
    intro a r hc ha
    have hb : p b = false := hc b (by simp)
    have hrec := ih a r (fun x hx => hc x (by simp [hx])) ha
    simp [findIdxFrom, hb, hrec]

theorem splitFirstLine_append_term {c : List Char} (hc : '\n' ∉ c) (r : List Char) :
    splitFirstLine (c ++ '\n' :: r) = (c ++ ['\n'], r) := by
  have hfind : findIdxFrom (fun x => decide (x = '\n')) (c ++ '\n' :: r) = some c.length := by
    refine findIdxFrom_append_of c '\n' r (fun x hx => ?_) (by simp)
    simp only [decide_eq_false_iff_not]
    intro h
    exact hc (h ▸ hx)
  simp only [splitFirstLine, hfind, Prod.mk.injEq]
  constructor
  · rw [show c.length + 1 = c.length + 1 from rfl, List.take_append]
    simp
  · rw [List.drop_append]
    simp

theorem splitFirstLine_no_nl {s : List Char} (hs : '\n' ∉ s) :
    splitFirstLine s = (s, []) := by
  have hfind : findIdxFrom (fun x => decide (x = '\n')) s = none := by
    rw [findIdxFrom_eq_none]
    intro x hx
    simp only [decide_eq_false_iff_not]
    intro h
    exact hs (h ▸ hx)
  simp [splitFirstLine, hfind]

theorem exists_first_nl {s : List Char} (hs : '\n' ∈ s) :
    ∃ c r, '\n' ∉ c ∧ s = c ++ '\n' :: r := by
  induction s with
  | nil => simp at hs
  | cons a s ih =>
    by_cases ha : a = '\n'
    · exact ⟨[], s, by simp, by simp [ha]⟩
    · have hmem : '\n' ∈ s := by
        rcases List.mem_cons.mp hs with h | h
        · exact absurd h.symm ha
        · exact h
      obtain ⟨c, r, hc, heq⟩ := ih hmem
      refine ⟨a :: c, r, ?_, by simp [heq]⟩
      simp only [List.mem_cons, not_or]
      exact ⟨fun h => ha h.symm, hc⟩

theorem splitFirstLine_shape {s : List Char} (hs : s ≠ []) :
    terminatedLine (splitFirstLine s).1 ∨
      ((splitFirstLine s).2 = [] ∧ openLine (splitFirstLine s).1) := by
  by_cases hnl : '\n' ∈ s
  · obtain ⟨c, r, hc, rfl⟩ := exists_first_nl hnl
    rw [splitFirstLine_append_term hc]
    exact Or.inl ⟨c, hc, rfl⟩
  · rw [splitFirstLine_no_nl hnl]
    exact Or.inr ⟨rfl, hs, hnl⟩

/-! ## Equations for `lines` and `lineStarts` -/

theorem linesLoop_nil : ∀ f, linesLoop f [] = [] := by
  intro f; cases f <;> simp [linesLoop]

theorem linesLoop_congr : ∀ (f1 f2 : Nat) (s : List Char),
    s.length ≤ f1 → s.length ≤ f2 → linesLoop f1 s = linesLoop f2 s := by
  intro f1
  induction f1 with
  | zero =>
    intro f2 s h1 _
    have hs0 : s = [] := List.length_eq_zero.mp (by omega)
    subst hs0
    simp [linesLoop_nil]
  | succ f ih =>
    intro f2 s h1 h2
    by_cases hs : s = []
    · subst hs; simp [linesLoop_nil]
    · cases f2 with
      | zero =>
        exact absurd (List.length_eq_zero.mp (by omega)) hs
      | succ f2 =>
        have hlt := splitFirstLine_snd_length_lt hs
        simp only [linesLoop, if_neg hs]
        rw [ih f2 (splitFirstLine s).2 (by omega) (by omega)]

theorem lines_nil : lines [] = [] := by
  simp [lines, linesLoop]

theorem lines_cons {s : List Char} (hs : s ≠ []) :
    lines s = (splitFirstLine s).1 :: lines (splitFirstLine s).2 := by
  have hpos : 0 < s.length := List.length_pos.mpr hs
  have hlt := splitFirstLine_snd_length_lt hs
  rw [lines, lines]
  cases hl : s.length with
  | zero => omega
  | succ k =>
    simp only [linesLoop, if_neg hs]
    rw [linesLoop_congr k (splitFirstLine s).2.length (splitFirstLine s).2 (by omega) (by omega)]

theorem lineStartsLoop_nil : ∀ f, lineStartsLoop f [] = [] := by
  intro f; cases f <;> simp [lineStartsLoop]

theorem lineStartsLoop_congr : ∀ (f1 f2 : Nat) (s : List Char),
    s.length ≤ f1 → s.length ≤ f2 → lineStartsLoop f1 s = lineStartsLoop f2 s := by
  intro f1
  induction f1 with
  | zero =>
    intro f2 s h1 _
    have hs0 : s = [] := List.length_eq_zero.mp (by omega)
    subst hs0
    simp [lineStartsLoop_nil]
  | succ f ih =>
    intro f2 s h1 h2
    by_cases hs : s = []
    · subst hs; simp [lineStartsLoop_nil]
    · cases f2 with
      | zero =>
        exact absurd (List.length_eq_zero.mp (by omega)) hs
      | succ f2 =>
        have hlt := splitFirstLine_snd_length_lt hs
        simp only [lineStartsLoop, if_neg hs]
        rw [ih f2 (splitFirstLine s).2 (by omega) (by omega)]

theorem lineStarts_nil : lineStarts [] = [] := by
  simp [lineStarts, lineStartsLoop]

theorem lineStarts_cons {s : List Char} (hs : s ≠ []) :
    lineStarts s = s :: lineStarts (splitFirstLine s).2 := by
  have hpos : 0 < s.length := List.length_pos.mpr hs
  have hlt := splitFirstLine_snd_length_lt hs
  rw [lineStarts, lineStarts]
  cases hl : s.length with
  | zero => omega
  | succ k =>
    simp only [lineStartsLoop, if_neg hs]
    rw [lineStartsLoop_congr k (splitFirstLine s).2.length (splitFirstLine s).2 (by omega) (by omega)]

/-! ## `goodLines` and the `lines`/`flatten` roundtrip -/

theorem goodLines_cons_iff {L : List Char} {ls : List (List Char)} :
    goodLines (L :: ls) ↔
      (terminatedLine L ∨ (ls = [] ∧ openLine L)) ∧ goodLines ls := by
  cases ls with
  | nil => simp [goodLines]
  | cons M rest => simp [goodLines]

theorem goodLines_mem : ∀ {ws : List (List Char)} {L : List Char},
    goodLines ws → L ∈ ws → terminatedLine L ∨ openLine L := by
  intro ws
  induction ws with
  | nil => intro L _ h; simp at h
  | cons M rest ih =>
    intro L hg hL
    rw [goodLines_cons_iff] at hg
    rcases List.mem_cons.mp hL with rfl | hL
    · rcases hg.1 with h | h
      · exact Or.inl h
      · exact Or.inr h.2
    · exact ih hg.2 hL

theorem goodLines_sublist : ∀ {ws vs : List (List Char)},
    List.Sublist ws vs → goodLines vs → goodLines ws := by
  intro ws vs h
  induction h with
  | slnil => exact fun h => h
  | cons a _ ih => exact fun hg => ih ((goodLines_cons_iff.mp hg).2)
  | cons₂ a hsub ih =>
    intro hg
    rw [goodLines_cons_iff] at hg ⊢
    refine ⟨?_, ih hg.2⟩
    rcases hg.1 with hterm | hh
    · exact Or.inl hterm
    · exact Or.inr ⟨List.sublist_nil.mp (hh.1 ▸ hsub), hh.2⟩

theorem terminatedLine_ne_nil {L : List Char} (h : terminatedLine L) : L ≠ [] := by
  obtain ⟨c, _, rfl⟩ := h
  simp

theorem lines_flatten : ∀ {ws : List (List Char)}, goodLines ws → lines ws.flatten = ws := by
  intro ws
  induction ws with
  | nil => intro _; simp [lines_nil]
  | cons L rest ih =>
    intro hg
    rw [goodLines_cons_iff] at hg
    rcases hg.1 with ⟨c, hc, rfl⟩ | hh
    · have hsplit : splitFirstLine ((c ++ ['\n']) ++ rest.flatten) = (c ++ ['\n'], rest.flatten) := by
        rw [show (c ++ ['\n']) ++ rest.flatten = c ++ '\n' :: rest.flatten by simp]
        exact splitFirstLine_append_term hc _
      rw [List.flatten_cons, lines_cons (by simp), hsplit]
      exact congrArg _ (ih hg.2)
    · obtain ⟨rfl, hL⟩ := hh
      rw [List.flatten_cons, List.flatten_nil, List.append_nil,
        lines_cons hL.1, splitFirstLine_no_nl hL.2]
      simp [lines_nil]


theorem bool_eq_decide {b : Bool} {q : Prop} [Decidable q] (h : b = true ↔ q) :
    b = decide q := by
  by_cases hq : q
  · simp [hq, h.mpr hq]
  · have hb : b ≠ true := fun hb => hq (h.mp hb)
    simp [hq, Bool.eq_false_iff.mpr hb]

theorem hasPrefix_iff : ∀ (p : List Char) (str : List Char) (off : Nat),
    hasPrefix str off p = true ↔ p <+: str.drop off := by
  intro p
  induction p with
  | nil => intro str off; simp [hasPrefix]
  | cons q rest ih =>
    intro str off
    simp only [hasPrefix]
    cases hoff : str[off]? with
    | none =>
      have hlen : str.length ≤ off := List.getElem?_eq_none_iff.mp hoff
      rw [List.drop_eq_nil_iff.mpr hlen]
      simp
    | some c =>
      have hlt : off < str.length := by
        by_contra hcon
        rw [List.getElem?_eq_none_iff.mpr (by omega)] at hoff
        exact Option.noConfusion hoff
      have hc : str[off] = c := by
        rw [List.getElem?_eq_getElem hlt] at hoff
        exact Option.some.inj hoff
      rw [List.drop_eq_getElem_cons hlt, hc, List.cons_prefix_cons]
      by_cases hqc : c = q
      · subst hqc; simp [ih]
      · simp only [if_neg hqc]
        refine ⟨fun h => absurd h (by simp), ?_⟩
        rintro ⟨rfl, -⟩
        exact absurd rfl hqc

theorem hasPrefix_eq (p str : List Char) (off : Nat) :
    hasPrefix str off p = decide (p <+: str.drop off) :=
  bool_eq_decide (hasPrefix_iff p str off)

theorem hasPrefixMain_eq : ∀ (p : List Char) (str : List Char) (off : Nat),
    off + p.length ≤ str.length → hasPrefixMain str off p = some (hasPrefix str off p) := by
  intro p
  induction p with
  | nil => intro str off _; simp [hasPrefixMain, hasPrefix]
  | cons q rest ih =>
    intro str off hle
    have hlt : off < str.length := by simp at hle; omega
    have hoff : str[off]? = some str[off] := List.getElem?_eq_getElem hlt
    simp only [hasPrefixMain, hasPrefix, hoff]
    by_cases hqc : str[off] = q
    · simp only [if_pos hqc]
      exact ih str (off + 1) (by simp at hle ⊢; omega)
    · simp [if_neg hqc]

theorem prefix_append_iff {a b s : List Char} :
    (a ++ b) <+: s ↔ a <+: s ∧ b <+: s.drop a.length := by
  constructor
  · rintro ⟨u, rfl⟩
    have h0 : (a ++ (b ++ u)).drop (a.length + 0) = (b ++ u).drop 0 := List.drop_append 0
    simp only [Nat.add_zero, List.drop_zero] at h0
    rw [List.append_assoc]
    exact ⟨⟨b ++ u, rfl⟩, by rw [h0]; exact ⟨u, rfl⟩⟩
  · rintro ⟨⟨u, rfl⟩, hb⟩
    have h0 : (a ++ u).drop (a.length + 0) = u.drop 0 := List.drop_append 0
    simp only [Nat.add_zero, List.drop_zero] at h0
    rw [h0] at hb
    obtain ⟨w, rfl⟩ := hb
    exact ⟨w, by simp⟩

theorem hasTestFailurePrefix_iff (str : List Char) (off : Nat) (t : List Char) :
    hasTestFailurePrefix str off t = true ↔ (testFailurePrefix ++ t) <+: str.drop off := by
  simp only [hasTestFailurePrefix, Bool.and_eq_true, hasPrefix_iff, prefix_append_iff]
  rw [List.drop_drop]

theorem prefix_cons_of_no_nl : ∀ {t : List Char}, '\n' ∉ t →
    ∀ {c r : List Char}, t <+: (c ++ '\n' :: r) → t <+: (c ++ ['\n']) := by
  intro t ht c
  induction c generalizing t with
  | nil =>
    intro r h
    cases t with
    | nil => simp
    | cons x t2 =>
      rw [List.nil_append, List.cons_prefix_cons] at h
      exact absurd h.1 (by rintro rfl; exact ht (by simp))
  | cons a c ih =>
    intro r h
    cases t with
    | nil => simp
    | cons x t2 =>
      rw [List.cons_append, List.cons_prefix_cons] at h
      have ht2 : '\n' ∉ t2 := fun hm => ht (by simp [hm])
      have hrec := ih ht2 h.2
      rw [List.cons_append, List.cons_prefix_cons]
      exact ⟨h.1, hrec⟩

theorem prefix_splitFirstLine {t s : List Char} (ht : '\n' ∉ t) :
    t <+: s ↔ t <+: (splitFirstLine s).1 := by
  by_cases hnl : '\n' ∈ s
  · obtain ⟨c, r, hc, rfl⟩ := exists_first_nl hnl
    rw [splitFirstLine_append_term hc]
    constructor
    · exact prefix_cons_of_no_nl ht
    · intro h
      exact h.trans ⟨r, by simp⟩
  · rw [splitFirstLine_no_nl hnl]

theorem directMatch_drop (logs t : List Char) (i : Nat) :
    (hasPrefix logs i t || hasTestFailurePrefix logs i t) = directMatch t (logs.drop i) := by
  rw [directMatch, hasPrefix_eq, bool_eq_decide (hasTestFailurePrefix_iff logs i t)]

theorem isTestLine_drop (logs : List Char) (i : Nat) :
    hasPrefix logs i ("Test".data) = isTestLine (logs.drop i) := by
  rw [isTestLine, hasPrefix_eq]

theorem no_nl_testFailure {t : List Char} (ht : '\n' ∉ t) :
    '\n' ∉ testFailurePrefix ++ t := by
  simp only [List.mem_append, not_or]
  exact ⟨by decide, ht⟩

theorem directMatch_firstLine {t : List Char} (ht : '\n' ∉ t) (s : List Char) :
    directMatch t s = directMatch t (splitFirstLine s).1 := by
  simp only [directMatch]
  rw [decide_eq_decide.mpr (prefix_splitFirstLine ht),
    decide_eq_decide.mpr (prefix_splitFirstLine (no_nl_testFailure ht))]

theorem isTestLine_firstLine (s : List Char) :
    isTestLine s = isTestLine (splitFirstLine s).1 := by
  simp only [isTestLine]
  rw [decide_eq_decide.mpr (prefix_splitFirstLine (by decide))]

/-! ## `findNext` and the line decomposition of the Go loops -/

theorem findNext_ge {str : List Char} {i j : Nat} (hi : i < str.length) (hij : i ≤ j)
    (c : Char) : i ≤ findNext str j c := by
  unfold findNext
  cases hf : findIdxFrom (fun x => decide (x = c)) (str.drop j) with
  | some k => simp only [hf]; omega
  | none => simp only [hf]; omega

theorem findNext_lt {str : List Char} (h : 0 < str.length) (j : Nat) (c : Char) :
    findNext str j c < str.length := by
  unfold findNext
  cases hf : findIdxFrom (fun x => decide (x = c)) (str.drop j) with
  | some k =>
    have hk := (findIdxFrom_eq_some hf).1
    simp only [List.length_drop] at hk
    simp only [hf]
    omega
  | none => simp only [hf]; omega

theorem goSlice_findNext {logs : List Char} {i : Nat} (hi : i < logs.length) :
    goSlice logs i (findNext logs i '\n' + 1) = (splitFirstLine (logs.drop i)).1 := by
  unfold findNext splitFirstLine goSlice
  cases hf : findIdxFrom (fun c => decide (c = '\n')) (logs.drop i) with
  | some j =>
    simp only [hf]
    rw [show i + j + 1 - i = j + 1 by omega]
  | none =>
    simp only [hf]
    rw [show logs.length - 1 + 1 - i = (logs.drop i).length by simp only [List.length_drop]; omega]
    exact List.take_length _

theorem drop_findNext {logs : List Char} {i : Nat} (hi : i < logs.length) :
    logs.drop (findNext logs i '\n' + 1) = (splitFirstLine (logs.drop i)).2 := by
  unfold findNext splitFirstLine
  cases hf : findIdxFrom (fun c => decide (c = '\n')) (logs.drop i) with
  | some j =>
    simp only [hf]
    rw [List.drop_drop, show i + (j + 1) = i + j + 1 by omega]
  | none =>
    simp only [hf]
    rw [show logs.length - 1 + 1 = logs.length by omega]
    exact List.drop_length _

theorem findNext_add_one_eq {logs : List Char} {i : Nat} (hi : i < logs.length) :
    findNext logs i '\n' + 1 = i + (splitFirstLine (logs.drop i)).1.length := by
  unfold findNext splitFirstLine
  cases hf : findIdxFrom (fun c => decide (c = '\n')) (logs.drop i) with
  | some j =>
    have hj := (findIdxFrom_eq_some hf).1
    simp only [hf, List.length_take, List.length_drop] at *
    omega
  | none =>
    simp only [hf, List.length_drop]
    omega

/-! ## Properties of the per-line state machine -/

theorem runFilter_sublist (t : List Char) :
    ∀ (ls : List (List Char)) (st : Bool), List.Sublist (runFilter t st ls) ls := by
  intro ls
  induction ls with
  | nil => intro st; simp [runFilter]
  | cons L rest ih =>
    intro st
    simp only [runFilter]
    by_cases hdm : directMatch t L = true
    · rw [if_pos hdm]
      exact List.Sublist.cons₂ L (ih true)
    · rw [if_neg hdm]
      cases st with
      | false =>
        rw [if_neg (by simp)]
        exact List.Sublist.cons L (ih false)
      | true =>
        rw [if_pos rfl]
        by_cases htl : isTestLine L = true
        · rw [if_pos htl]
          exact List.Sublist.cons L (ih false)
        · rw [if_neg htl]
          exact List.Sublist.cons₂ L (ih true)

theorem runFilter_mem_ok (t : List Char) :
    ∀ (ls : List (List Char)) (st : Bool) (L : List Char), L ∈ runFilter t st ls →
      directMatch t L = true ∨ isTestLine L = false := by
  intro ls
  induction ls with
  | nil => intro st L h; simp [runFilter] at h
  | cons M rest ih =>
    intro st L h
    simp only [runFilter] at h
    by_cases hdm : directMatch t M = true
    · rw [if_pos hdm] at h
      rcases List.mem_cons.mp h with rfl | h
      · exact Or.inl hdm
      · exact ih true L h
    · rw [if_neg hdm] at h
      cases st with
      | false =>
        rw [if_neg (by simp)] at h
        exact ih false L h
      | true =>
        rw [if_pos rfl] at h
        by_cases htl : isTestLine M = true
        · rw [if_pos htl] at h
          exact ih false L h
        · rw [if_neg htl] at h
          rcases List.mem_cons.mp h with rfl | h
          · exact Or.inr (Bool.eq_false_iff.mpr htl)
          · exact ih true L h

theorem runFilter_false_head (t : List Char) :
    ∀ (ls : List (List Char)) (L : List Char) (r : List (List Char)),
      runFilter t false ls = L :: r → directMatch t L = true := by
  intro ls
  induction ls with
  | nil => intro L r h; simp [runFilter] at h
  | cons M rest ih =>
    intro L r h
    simp only [runFilter] at h
    by_cases hdm : directMatch t M = true
    · rw [if_pos hdm] at h
      have hinj := (List.cons.injEq M (runFilter t true rest) L r).mp h
      exact hinj.1 ▸ hdm
    · rw [if_neg hdm, if_neg (by simp)] at h
      exact ih L r h

theorem runFilter_true_of_ok (t : List Char) :
    ∀ (ls : List (List Char)),
      (∀ L ∈ ls, directMatch t L = true ∨ isTestLine L = false) →
      runFilter t true ls = ls := by
  intro ls
  induction ls with
  | nil => intro _; simp [runFilter]
  | cons M rest ih =>
    intro h
    have hrest := ih (fun L hL => h L (by simp [hL]))
    simp only [runFilter]
    by_cases hdm : directMatch t M = true
    · rw [if_pos hdm, hrest]
    · rw [if_neg hdm, if_pos trivial]
      rcases h M (by simp) with hc | hc
      · exact absurd hc hdm
      · rw [if_neg (by simp [hc]), hrest]

theorem runFilter_idem (t : List Char) (ls : List (List Char)) :
    runFilter t false (runFilter t false ls) = runFilter t false ls := by
  cases hout : runFilter t false ls with
  | nil => simp [runFilter]
  | cons L r =>
    have hdm : directMatch t L = true := runFilter_false_head t ls L r hout
    have hok : ∀ M ∈ r, directMatch t M = true ∨ isTestLine M = false := by
      intro M hM
      exact runFilter_mem_ok t ls false M (by rw [hout]; simp [hM])
    simp only [runFilter, if_pos hdm]
    rw [runFilter_true_of_ok t r hok]

/-! ## Bridge: the Go loop equals the per-line state machine -/

theorem filterLogsLoop_eq_runFilter {t : List Char} (ht : '\n' ∉ t) (logs : List Char) :
    ∀ (fuel i : Nat) (prior : Bool), logs.length - i ≤ fuel →
      filterLogsLoop logs t fuel i prior = (runFilter t prior (lines (logs.drop i))).flatten := by
  intro fuel
  induction fuel with
  | zero =>
    intro i prior hfuel
    have hdrop : logs.drop i = [] := List.drop_eq_nil_iff.mpr (by omega)
    simp [filterLogsLoop, hdrop, lines_nil, runFilter]
  | succ fuel ih =>
    intro i prior hfuel
    by_cases hi : i ≥ logs.length
    · have hdrop : logs.drop i = [] := List.drop_eq_nil_iff.mpr (by omega)
      simp [filterLogsLoop, hi, hdrop, lines_nil, runFilter]
    · push_neg at hi
      have hsne : logs.drop i ≠ [] := by
        intro hcon
        have := List.drop_eq_nil_iff.mp hcon
        omega
      have hge : i ≤ findNext logs i '\n' := findNext_ge hi (Nat.le_refl i) '\n'
      have hfuel2 : logs.length - (findNext logs i '\n' + 1) ≤ fuel := by omega
      rw [lines_cons hsne]
      simp only [filterLogsLoop, if_neg (by omega : ¬ i ≥ logs.length), runFilter]
      rw [directMatch_drop, directMatch_firstLine ht, isTestLine_drop, isTestLine_firstLine]
      by_cases hdm : directMatch t (splitFirstLine (logs.drop i)).1 = true
      · rw [if_pos hdm, if_pos hdm, List.flatten_cons, goSlice_findNext hi,
          ih (findNext logs i '\n' + 1) true hfuel2, drop_findNext hi]
      · rw [if_neg hdm, if_neg hdm]
        cases prior with
        | false =>
          rw [if_neg (by simp), if_neg (by simp),
            ih (findNext logs i '\n' + 1) false hfuel2, drop_findNext hi]
        | true =>
          rw [if_pos rfl, if_pos rfl]
          by_cases htl : isTestLine (splitFirstLine (logs.drop i)).1 = true
          · rw [if_pos htl, if_pos htl,
              ih (findNext logs i '\n' + 1) false hfuel2, drop_findNext hi]
          · rw [if_neg htl, if_neg htl, List.flatten_cons, goSlice_findNext hi,
              ih (findNext logs i '\n' + 1) true hfuel2, drop_findNext hi]

theorem filterLogs_eq_runFilter {t : List Char} (ht : '\n' ∉ t) (logs : List Char) :
    (filterLogs logs t).1 = (runFilter t false (lines logs)).flatten := by
  rw [filterLogs]
  rw [filterLogsLoop_eq_runFilter ht logs logs.length 0 false (by omega)]
  simp

/-! ## The Go loop emits a sublist of the lines, for arbitrary test names -/

theorem filterLogsLoop_sublist (logs t : List Char) :
    ∀ (fuel i : Nat) (prior : Bool), logs.length - i ≤ fuel →
      ∃ ws, List.Sublist ws (lines (logs.drop i)) ∧
        filterLogsLoop logs t fuel i prior = ws.flatten := by
  intro fuel
  induction fuel with
  | zero =>
    intro i prior hfuel
    have hdrop : logs.drop i = [] := List.drop_eq_nil_iff.mpr (by omega)
    exact ⟨[], by simp [hdrop, lines_nil], by simp [filterLogsLoop]⟩
  | succ fuel ih =>
    intro i prior hfuel
    by_cases hi : i ≥ logs.length
    · have hdrop : logs.drop i = [] := List.drop_eq_nil_iff.mpr (by omega)
      exact ⟨[], by simp [hdrop, lines_nil], by simp [filterLogsLoop, hi]⟩
    · push_neg at hi
      have hsne : logs.drop i ≠ [] := by
        intro hcon
        have := List.drop_eq_nil_iff.mp hcon
        omega
      have hge : i ≤ findNext logs i '\n' := findNext_ge hi (Nat.le_refl i) '\n'
      have hfuel2 : logs.length - (findNext logs i '\n' + 1) ≤ fuel := by omega
      obtain ⟨ws1, hws1, heq1⟩ := ih (findNext logs i '\n' + 1) true hfuel2
      obtain ⟨ws0, hws0, heq0⟩ := ih (findNext logs i '\n' + 1) false hfuel2
      obtain ⟨wsp, hwsp, heqp⟩ := ih (findNext logs i '\n' + 1) prior hfuel2
      rw [drop_findNext hi] at hws1 hws0 hwsp
      rw [lines_cons hsne]
      simp only [filterLogsLoop, if_neg (by omega : ¬ i ≥ logs.length)]
      by_cases hc1 : (hasPrefix logs i t || hasTestFailurePrefix logs i t) = true
      · refine ⟨(splitFirstLine (logs.drop i)).1 :: ws1, List.Sublist.cons₂ _ hws1, ?_⟩
        rw [if_pos hc1, List.flatten_cons, goSlice_findNext hi, heq1]
      · rw [if_neg hc1]
        cases prior with
        | false =>
          refine ⟨wsp, List.Sublist.cons _ hwsp, ?_⟩
          rw [if_neg (by simp), heqp]
        | true =>
          rw [if_pos rfl]
          by_cases hc2 : hasPrefix logs i ("Test".data) = true
          · refine ⟨ws0, List.Sublist.cons _ hws0, ?_⟩
            rw [if_pos hc2, heq0]
          · refine ⟨(splitFirstLine (logs.drop i)).1 :: wsp, List.Sublist.cons₂ _ hwsp, ?_⟩
            rw [if_neg hc2, List.flatten_cons, goSlice_findNext hi, heqp]

/-! ## Shape of `lines` and trailing-terminator facts -/

theorem lines_good (s : List Char) : goodLines (lines s) := by
  by_cases hs : s = []
  · subst hs; simp [lines_nil, goodLines]
  · rw [lines_cons hs, goodLines_cons_iff]
    rcases splitFirstLine_shape hs with hterm | hh
    · exact ⟨Or.inl hterm, lines_good (splitFirstLine s).2⟩
    · rw [hh.1]
      exact ⟨Or.inr ⟨by rw [lines_nil], hh.2⟩, by rw [lines_nil]; trivial⟩
termination_by s.length
decreasing_by exact splitFirstLine_snd_length_lt hs

theorem lines_flatten_self (s : List Char) : (lines s).flatten = s := by
  by_cases hs : s = []
  · subst hs; simp [lines_nil]
  · rw [lines_cons hs, List.flatten_cons, lines_flatten_self (splitFirstLine s).2,
      splitFirstLine_fst_append_snd]
termination_by s.length
decreasing_by exact splitFirstLine_snd_length_lt hs

theorem goodLines_cases_end : ∀ {ws : List (List Char)}, goodLines ws →
    (∀ L ∈ ws, terminatedLine L) ∨ ∃ vs L, ws = vs ++ [L] ∧ openLine L := by
  intro ws
  induction ws with
  | nil => intro _; exact Or.inl (by simp)
  | cons M rest ih =>
    intro hg
    rw [goodLines_cons_iff] at hg
    rcases ih hg.2 with hall | hex
    · rcases hg.1 with hterm | hh
      · refine Or.inl ?_
        intro L hL
        rcases List.mem_cons.mp hL with rfl | hL
        · exact hterm
        · exact hall L hL
      · exact Or.inr ⟨[], M, by simp [hh.1], hh.2⟩
    · obtain ⟨vs, L, rfl, hopen⟩ := hex
      rcases hg.1 with hterm | hh
      · exact Or.inr ⟨M :: vs, L, by simp, hopen⟩
      · exact absurd hh.1 (by simp)

theorem lines_terminated {B : List Char} (h : B.getLast? = some '\n') :
    ∀ L ∈ lines B, terminatedLine L := by
  rcases goodLines_cases_end (lines_good B) with hall | hex
  · exact hall
  · exfalso
    obtain ⟨vs, L, hws, hopen⟩ := hex
    have hflat := lines_flatten_self B
    rw [hws, List.flatten_append] at hflat
    simp only [List.flatten_cons, List.flatten_nil, List.append_nil] at hflat
    rw [← hflat, List.getLast?_append] at h
    cases hL : L.getLast? with
    | none => exact hopen.1 (List.getLast?_eq_none_iff.mp hL)
    | some a =>
      rw [hL] at h
      simp only [Option.or_some] at h
      have ha : a = '\n' := by simpa using h
      subst ha
      exact hopen.2 (List.mem_of_getLast?_eq_some hL)

theorem flatten_getLast_nl {ws : List (List Char)} (hne : ws ≠ [])
    (hterm : ∀ L ∈ ws, terminatedLine L) : (ws.flatten).getLast? = some '\n' := by
  rcases List.eq_nil_or_concat ws with rfl | hex
  · exact absurd rfl hne
  · obtain ⟨vs, L, rfl⟩ := hex
    obtain ⟨c, hc, rfl⟩ := hterm L (by simp [List.concat_eq_append])
    rw [List.concat_eq_append, List.flatten_append]
    simp only [List.flatten_cons, List.flatten_nil, List.append_nil]
    rw [← List.append_assoc]
    exact List.getLast?_concat _

theorem filterLogs_flatten_sublist (B t : List Char) :
    ∃ ws, List.Sublist ws (lines B) ∧ (filterLogs B t).1 = ws.flatten := by
  obtain ⟨ws, hsub, heq⟩ := filterLogsLoop_sublist B t B.length 0 false (by omega)
  rw [List.drop_zero] at hsub
  exact ⟨ws, hsub, heq⟩

/-! ## Claims -/

/-- C2** (code_bug evaluation): the historical `filterLogs` of `src/main.go`
is *not* total: on the buffer `"Tes"` (final line shorter than the test name,
no trailing newline) with test name `"TestA"`, its unchecked `hasPrefix`
reads `str[3]` past the 3-byte buffer — a Go runtime panic (`none`).  The
bounds-checked variant of the `src/README.md` text returns normally with an
empty result and nil error on the same input, as the claim describes. -/
theorem claim_C2_code_eval :
    filterLogsMain "Tes".data "TestA".data = none
      ∧ filterLogs "Tes".data "TestA".data = ([], none) := by
  decide

/-- C1** (counterexample): the Test-Output Filter emits a line (and enters
MATCHED — the following line is captured as a continuation) although the
line's token prefix (its leading non-space run) does *not* equal the target
test name and the line does not carry the failure-report header: matching is
`hasPrefix` (begins-with), not token equality, so `"TestFooBar 1"` is
captured when filtering on `"TestFoo"`. -/
theorem claim_C1_counterexample :
    (filterLogs "TestFooBar 1\nzz\n".data "TestFoo".data).1 = "TestFooBar 1\nzz\n".data
      ∧ ("TestFooBar 1\nzz\n".data).takeWhile (fun c => decide (c ≠ ' ')) ≠ "TestFoo".data
      ∧ ¬ (testFailurePrefix ++ "TestFoo".data) <+: "TestFooBar 1\nzz\n".data := by
  decide

/-- C1** (amended): a line is emitted by the direct-match branch (verbatim,
with transition to MATCHED regardless of the previous state) exactly when the
buffer at the line's start *begins with* the target test name, or begins with
the ten-character failure-report header `"=== NAME  "` immediately followed
by the test name — begins-with, not token-prefix equality; and the claim's
example holds. -/
theorem claim_C1_amended :
    ((filterLogs "TestFoo 1\nTestBar 1\n=== NAME  TestFoo\n    foo.go:123:\n".data
        "TestFoo".data).1 = "TestFoo 1\n=== NAME  TestFoo\n    foo.go:123:\n".data)
      ∧ (∀ logs t i,
          (hasPrefix logs i t || hasTestFailurePrefix logs i t) = directMatch t (logs.drop i))
      ∧ (∀ t L rest st, directMatch t L = true →
          runFilter t st (L :: rest) = L :: runFilter t true rest)
      ∧ (∀ t L rest, directMatch t L = false →
          runFilter t false (L :: rest) = runFilter t false rest) := by
  refine ⟨by decide, directMatch_drop, ?_, ?_⟩
  · intro t L rest st hdm
    simp [runFilter, hdm]
  · intro t L rest hdm
    simp [runFilter, hdm]

theorem claim_C1_amended_witness :
    runFilter "TestFoo".data false ["=== NAME  TestFoo\n".data] = ["=== NAME  TestFoo\n".data] := by
  have h := claim_C1_amended.2.2.1 "TestFoo".data "=== NAME  TestFoo\n".data [] false (by decide)
  rw [h]
  decide

/-- C3**: for every buffer and test name, the output of `filterLogs` is the
concatenation of a sublist of the buffer's lines: every emitted line occurs
verbatim in the buffer, in original order, with no line introduced,
duplicated, or reordered; re-splitting the output recovers exactly that
sublist. -/
theorem claim_C3 (B t : List Char) :
    ∃ ws, List.Sublist ws (lines B) ∧ (filterLogs B t).1 = ws.flatten ∧
      lines ((filterLogs B t).1) = ws := by
  obtain ⟨ws, hsub, heq⟩ := filterLogs_flatten_sublist B t
  refine ⟨ws, hsub, heq, ?_⟩
  rw [heq]
  exact lines_flatten (goodLines_sublist hsub (lines_good B))

/-- C4**: the filter starts in UNMATCHED (`filterLogs` runs the per-line
state machine from `false`); in MATCHED state a line that begins with
`"Test"` but is not a direct match is dropped and capture ends (transition
to UNMATCHED), while a line that is no direct match and does not begin with
`"Test"` is emitted as a continuation of the most recently matched test's
block; and the claim's example holds. -/
theorem claim_C4 :
    (∀ B t, '\n' ∉ t → (filterLogs B t).1 = (runFilter t false (lines B)).flatten)
      ∧ (∀ t L rest, directMatch t L = false → isTestLine L = true →
          runFilter t true (L :: rest) = runFilter t false rest)
      ∧ (∀ t L rest, directMatch t L = false → isTestLine L = false →
          runFilter t true (L :: rest) = L :: runFilter t true rest)
      ∧ (filterLogs "TestA 1\nno prefix 1\nTestA 2\nTestB 1\nno prefix 2\n".data
          "TestB".data).1 = "TestB 1\nno prefix 2\n".data := by
  refine ⟨fun B t ht => filterLogs_eq_runFilter ht B, ?_, ?_, by decide⟩
  · intro t L rest hdm htl
    simp [runFilter, hdm, htl]
  · intro t L rest hdm htl
    simp [runFilter, hdm, htl]

theorem claim_C4_witness :
    runFilter "TestB".data true ["no prefix 2\n".data] = ["no prefix 2\n".data] := by
  have h := claim_C4.2.2.1 "TestB".data "no prefix 2\n".data [] (by decide) (by decide)
  rw [h]
  decide

/-- C5** (counterexample): idempotence fails as stated.  With test name
`"A\nTest"` (a caller-supplied byte sequence containing a newline), filtering
`"A\nTestB 1\nq\n"` yields `"A\n"`, but filtering again yields the empty
buffer; the spec's side condition holds (neither the singly- nor the
doubly-filtered result contains any `"Test"`-prefixed line). -/
theorem claim_C5_counterexample :
    (filterLogs "A\nTestB 1\nq\n".data "A\nTest".data).1 = "A\n".data
      ∧ (filterLogs (filterLogs "A\nTestB 1\nq\n".data "A\nTest".data).1 "A\nTest".data).1 ≠
          (filterLogs "A\nTestB 1\nq\n".data "A\nTest".data).1
      ∧ (∀ L ∈ lines ((filterLogs (filterLogs "A\nTestB 1\nq\n".data "A\nTest".data).1
          "A\nTest".data).1), isTestLine L = false)
      ∧ (∀ L ∈ lines ((filterLogs "A\nTestB 1\nq\n".data "A\nTest".data).1),
          isTestLine L = false) := by
  decide

/-- C5** (amended): `filterLogs` is idempotent for every buffer whenever
the test name contains no newline byte (true of every Go test name):
`filter(filter(B,T),T) = filter(B,T)`. -/
theorem claim_C5_amended (B t : List Char) (ht : '\n' ∉ t) :
    (filterLogs (filterLogs B t).1 t).1 = (filterLogs B t).1 := by
  have hbridge := filterLogs_eq_runFilter ht B
  have hgood : goodLines (runFilter t false (lines B)) :=
    goodLines_sublist (runFilter_sublist t (lines B) false) (lines_good B)
  rw [hbridge, filterLogs_eq_runFilter ht, lines_flatten hgood, runFilter_idem]

theorem claim_C5_witness :
    ('\n' ∉ "TestA".data)
      ∧ (filterLogs (filterLogs "TestA 1\nTestB 1\n".data "TestA".data).1 "TestA".data).1 =
          (filterLogs "TestA 1\nTestB 1\n".data "TestA".data).1 :=
  ⟨by decide, claim_C5_amended _ _ (by decide)⟩

/-- C6** (counterexample): trailing-terminator preservation fails as a
buffer-level invariant: the input `"TestA 1\nTestB"` has no trailing
newline, yet filtering on `"TestA"` drops the unterminated final line and
returns `"TestA 1\n"`, which ends with a newline. -/
theorem claim_C6_counterexample :
    (filterLogs "TestA 1\nTestB".data "TestA".data).1 = "TestA 1\n".data
      ∧ ("TestA 1\nTestB".data).getLast? = some 'B'
      ∧ ("TestA 1\n".data).getLast? = some '\n' := by
  decide

/-- C6** (amended): each emitted line keeps its original terminator (the
output is the concatenation of a sublist of the input's lines); a trailing
terminator on the buffer is preserved (a terminated input yields an empty or
terminated output) — but terminator *absence* is preserved only when the
unterminated final line is itself emitted, as in the claim's example
`"TestA 1\nTestB 1\nTestA 2\nTestB 2"` filtered on `"TestB"`. -/
theorem claim_C6_amended :
    ((filterLogs "TestA 1\nTestB 1\nTestA 2\nTestB 2".data "TestB".data).1 =
        "TestB 1\nTestB 2".data)
      ∧ (∀ B t, B.getLast? = some '\n' →
          (filterLogs B t).1 = [] ∨ ((filterLogs B t).1).getLast? = some '\n')
      ∧ (∀ B t, ∃ ws, List.Sublist ws (lines B) ∧ (filterLogs B t).1 = ws.flatten) := by
  refine ⟨by decide, ?_, filterLogs_flatten_sublist⟩
  intro B t hB
  obtain ⟨ws, hsub, heq⟩ := filterLogs_flatten_sublist B t
  cases hws : ws with
  | nil => left; rw [heq, hws]; rfl
  | cons W vs =>
    right
    rw [heq, flatten_getLast_nl (by rw [hws]; simp) ?_]
    intro L hL
    exact lines_terminated hB L (hsub.subset hL)

theorem claim_C6_witness :
    (filterLogs "TestA 1\n".data "TestA".data).1 = [] ∨
      ((filterLogs "TestA 1\n".data "TestA".data).1).getLast? = some '\n' :=
  claim_C6_amended.2.1 "TestA 1\n".data "TestA".data (by decide)

/-! ## Timestamp stripping: per-line action of `removeTimestampPrefix` -/

theorem exists_first_char {x : Char} {s : List Char} (hx : x ∈ s) :
    ∃ a b, x ∉ a ∧ s = a ++ x :: b := by
  induction s with
  | nil => simp at hx
  | cons z s ih =>
    by_cases hz : z = x
    · exact ⟨[], s, by simp, by simp [hz]⟩
    · have hmem : x ∈ s := by
        rcases List.mem_cons.mp hx with h | h
        · exact absurd h.symm hz
        · exact h
      obtain ⟨a, b, ha, heq⟩ := ih hmem
      refine ⟨z :: a, b, ?_, by simp [heq]⟩
      simp only [List.mem_cons, not_or]
      exact ⟨fun h => hz h.symm, ha⟩

theorem stripTimestampLine_eq {a b : List Char} (ha : ' ' ∉ a) :
    stripTimestampLine (a ++ ' ' :: b) = b := by
  unfold stripTimestampLine
  rw [List.dropWhile_append_of_pos (by
    intro z hz
    simp only [decide_eq_true_eq]
    exact fun h => ha (h ▸ hz))]
  rw [show (' ' :: b).dropWhile (fun c => decide (c ≠ ' ')) = ' ' :: b by
    simp [List.dropWhile_cons]]
  simp

theorem line_space_decomp {L : List Char} (hL : terminatedLine L ∨ openLine L) (hsp : ' ' ∈ L) :
    ∃ a b, ' ' ∉ a ∧ '\n' ∉ a ∧ L = a ++ ' ' :: b ∧
      (terminatedLine L → ∃ e, '\n' ∉ e ∧ b = e ++ ['\n']) ∧
      (openLine L → '\n' ∉ b) := by
  obtain ⟨a, b, ha, rfl⟩ := exists_first_char hsp
  rcases hL with hterm | hopen
  · obtain ⟨c, hc, hceq⟩ := hterm
    have hbne : b ≠ [] := by
      rintro rfl
      have h1 : (a ++ [' ']).getLast? = some ' ' := List.getLast?_concat _
      have h2 : (c ++ ['\n']).getLast? = some '\n' := List.getLast?_concat _
      rw [show a ++ [' '] = a ++ ' ' :: ([] : List Char) by simp, hceq] at h1
      rw [h2] at h1
      simp at h1
    rcases List.eq_nil_or_concat b with rfl | hex
    · exact absurd rfl hbne
    · obtain ⟨e, x, rfl⟩ := hex
      rw [List.concat_eq_append] at hceq ⊢
      have hre : (a ++ ' ' :: e) ++ [x] = c ++ ['\n'] := by
        rw [← hceq]; simp
      have hinj := List.append_inj' hre (by simp)
      have hx : x = '\n' := by simpa using hinj.2
      subst hx
      have hsub : ∀ z ∈ a ++ ' ' :: e, z ∈ c := fun z hz => hinj.1 ▸ hz
      refine ⟨a, e ++ ['\n'], ha, ?_, rfl, ?_, ?_⟩
      · exact fun hmem => hc (hsub '\n' (by simp [hmem]))
      · intro _
        exact ⟨e, fun hmem => hc (hsub '\n' (by simp [hmem])), rfl⟩
      · intro hopen
        exact absurd (by simp : '\n' ∈ a ++ ' ' :: (e ++ ['\n'])) hopen.2
  · have hna : '\n' ∉ a := fun h => hopen.2 (by simp [h])
    have hnb : '\n' ∉ b := fun h => hopen.2 (by simp [h])
    refine ⟨a, b, ha, hna, rfl, ?_, fun _ => hnb⟩
    intro hterm
    obtain ⟨c, hc, hceq⟩ := hterm
    exact absurd (by rw [hceq]; simp : '\n' ∈ a ++ ' ' :: b) hopen.2

theorem stripTimestampLine_length (L : List Char) :
    (stripTimestampLine L).length ≤ L.length := by
  unfold stripTimestampLine
  have h1 : (L.dropWhile (fun c => decide (c ≠ ' '))).length ≤ L.length :=
    (List.dropWhile_sublist _).length_le
  have h2 := List.length_drop 1 (L.dropWhile (fun c => decide (c ≠ ' ')))
  omega

theorem stripTimestampLine_count {L : List Char}
    (hL : terminatedLine L ∨ openLine L) (hsp : ' ' ∈ L) :
    (stripTimestampLine L).count '\n' = L.count '\n' := by
  obtain ⟨a, b, ha, hna, rfl, _, _⟩ := line_space_decomp hL hsp
  rw [stripTimestampLine_eq ha]
  rw [List.count_append, List.count_cons]
  rw [List.count_eq_zero.mpr hna]
  simp

/-! ## Bridge for `removeTimestampPrefix` -/

theorem removeTimestampPrefixLoop_eq {logs : List Char} :
    ∀ (fuel i : Nat), logs.length - i ≤ fuel →
      (∀ L ∈ lines (logs.drop i), ' ' ∈ L) →
      removeTimestampPrefixLoop logs fuel i =
        ((lines (logs.drop i)).map stripTimestampLine).flatten := by
  intro fuel
  induction fuel with
  | zero =>
    intro i hfuel _
    have hdrop : logs.drop i = [] := List.drop_eq_nil_iff.mpr (by omega)
    simp [removeTimestampPrefixLoop, hdrop, lines_nil]
  | succ fuel ih =>
    intro i hfuel hsp
    by_cases hi : i ≥ logs.length
    · have hdrop : logs.drop i = [] := List.drop_eq_nil_iff.mpr (by omega)
      simp [removeTimestampPrefixLoop, hi, hdrop, lines_nil]
    · push_neg at hi
      have hsne : logs.drop i ≠ [] := by
        intro hcon
        have := List.drop_eq_nil_iff.mp hcon
        omega
      have hlines := lines_cons hsne
      have hspfst : ' ' ∈ (splitFirstLine (logs.drop i)).1 := by
        refine hsp _ ?_
        rw [hlines]; simp
      have hshape := splitFirstLine_shape hsne
      have hshape2 : terminatedLine (splitFirstLine (logs.drop i)).1 ∨
          openLine (splitFirstLine (logs.drop i)).1 := by
        rcases hshape with h | h
        · exact Or.inl h
        · exact Or.inr h.2
      obtain ⟨a, b, hsa, hna, hfst, hbterm, hbopen⟩ := line_space_decomp hshape2 hspfst
      have hs : logs.drop i = a ++ ' ' :: (b ++ (splitFirstLine (logs.drop i)).2) := by
        conv_lhs => rw [← splitFirstLine_fst_append_snd (logs.drop i)]
        rw [hfst]
        simp [List.append_assoc]
      have hfind1 : findNext logs i ' ' = i + a.length := by
        unfold findNext
        rw [hs, findIdxFrom_append_of a ' ' _ (fun z hz => by
          simp only [decide_eq_false_iff_not]
          exact fun h => hsa (h ▸ hz)) (by simp)]
      have hdrop2 : logs.drop (i + a.length + 1) = b ++ (splitFirstLine (logs.drop i)).2 := by
        conv_lhs =>
          rw [show i + a.length + 1 = i + (a.length + 1) by omega, ← List.drop_drop, hs]
        rw [List.drop_append 1]
        simp
      have hstrip : stripTimestampLine (splitFirstLine (logs.drop i)).1 = b := by
        rw [hfst]; exact stripTimestampLine_eq hsa
      simp only [removeTimestampPrefixLoop, if_neg (by omega : ¬ i ≥ logs.length), hfind1]
      rw [hlines]
      simp only [List.map_cons, List.flatten_cons, hstrip]
      by_cases hbsnd : b ++ (splitFirstLine (logs.drop i)).2 = []
      · have hble : logs.length ≤ i + a.length + 1 := by
          by_contra hcon
          push_neg at hcon
          have hne2 : logs.drop (i + a.length + 1) ≠ [] := by
            intro h0
            have := List.drop_eq_nil_iff.mp h0
            omega
          exact hne2 (by rw [hdrop2, hbsnd])
        have hb0 : b = [] := (List.append_eq_nil.mp hbsnd).1
        have hsnd0 : (splitFirstLine (logs.drop i)).2 = [] := (List.append_eq_nil.mp hbsnd).2
        have hfind2 : findNext logs (i + a.length + 1) '\n' = logs.length - 1 := by
          unfold findNext
          rw [List.drop_eq_nil_iff.mpr hble]
          simp [findIdxFrom]
        have hlen1 : logs.length - 1 + 1 = logs.length := by omega
        rw [hfind2, hlen1]
        have hslice : goSlice logs (i + a.length + 1) logs.length = [] := by
          unfold goSlice
          rw [List.drop_eq_nil_iff.mpr hble]
          simp
        have hrec := ih logs.length (by omega) (by
          rw [List.drop_length, lines_nil]
          intro L hL
          simp at hL)
        rw [hslice, hb0, hsnd0, lines_nil, hrec, List.drop_length, lines_nil]
      · have hi2 : i + a.length + 1 < logs.length := by
          by_contra hcon
          push_neg at hcon
          rw [List.drop_eq_nil_iff.mpr (by omega)] at hdrop2
          exact hbsnd hdrop2.symm
        have hsplit2 : splitFirstLine (b ++ (splitFirstLine (logs.drop i)).2) =
            (b, (splitFirstLine (logs.drop i)).2) := by
          rcases hshape with hterm | hopen
          · obtain ⟨e, hne, rfl⟩ := hbterm hterm
            rw [show (e ++ ['\n']) ++ (splitFirstLine (logs.drop i)).2 =
              e ++ '\n' :: (splitFirstLine (logs.drop i)).2 by simp]
            exact splitFirstLine_append_term hne _
          · rw [hopen.1, List.append_nil]
            exact splitFirstLine_no_nl (hbopen hopen.2)
        have hline := goSlice_findNext hi2
        have hrest := drop_findNext hi2
        rw [hdrop2, hsplit2] at hline hrest
        rw [hline]
        have hrec := ih (findNext logs (i + a.length + 1) '\n' + 1) (by
          have hge2 : i ≤ findNext logs (i + a.length + 1) '\n' :=
            findNext_ge hi (by omega) '\n'
          omega) (by
          rw [hrest]
          intro L hL
          refine hsp L ?_
          rw [hlines]
          simp [hL])
        rw [hrec, hrest]

theorem flatten_map_strip_length : ∀ ws : List (List Char),
    ((ws.map stripTimestampLine).flatten).length ≤ (ws.flatten).length := by
  intro ws
  induction ws with
  | nil => simp
  | cons L rest ihw =>
    simp only [List.map_cons, List.flatten_cons, List.length_append]
    have h1 := stripTimestampLine_length L
    omega

theorem flatten_map_strip_count : ∀ ws : List (List Char),
    (∀ L ∈ ws, (terminatedLine L ∨ openLine L) ∧ ' ' ∈ L) →
    ((ws.map stripTimestampLine).flatten).count '\n' = (ws.flatten).count '\n' := by
  intro ws
  induction ws with
  | nil => intro _; simp
  | cons L rest ihw =>
    intro h
    simp only [List.map_cons, List.flatten_cons, List.count_append]
    rw [stripTimestampLine_count (h L (by simp)).1 (h L (by simp)).2,
      ihw (fun M hM => h M (by simp [hM]))]

/-- C7**: on any buffer each of whose lines contains a space (every line
begins with a timestamp token followed by a space), `removeTimestampPrefix`
maps each line to the substring strictly after the line's first space through
its terminator inclusive; the output is never larger than the input and the
line count (newline count, hence the number of `'\n'`-separated segments) is
preserved. -/
theorem claim_C7 (B : List Char) (h : ∀ L ∈ lines B, ' ' ∈ L) :
    removeTimestampPrefix B = ((lines B).map stripTimestampLine).flatten
      ∧ (removeTimestampPrefix B).length ≤ B.length
      ∧ (removeTimestampPrefix B).count '\n' = B.count '\n' := by
  have hbridge : removeTimestampPrefix B = ((lines B).map stripTimestampLine).flatten := by
    rw [removeTimestampPrefix,
      removeTimestampPrefixLoop_eq B.length 0 (by omega) (by rw [List.drop_zero]; exact h)]
    rw [List.drop_zero]
  refine ⟨hbridge, ?_, ?_⟩
  · rw [hbridge]
    conv_rhs => rw [← lines_flatten_self B]
    exact flatten_map_strip_length (lines B)
  · rw [hbridge]
    conv_rhs => rw [← lines_flatten_self B]
    exact flatten_map_strip_count (lines B)
      (fun L hL => ⟨goodLines_mem (lines_good B) hL, h L hL⟩)

theorem claim_C7_witness :
    removeTimestampPrefix "2023-05-02T19:31:15.2539162Z Done in 219ms.".data
      = "Done in 219ms.".data :=
  ((claim_C7 _ (by decide)).1).trans (by decide)

/-! ## Bridge for `removeTestNamePrefix` -/

theorem goSlice_line_drop {logs : List Char} {i k : Nat}
    (hk : k ≤ (splitFirstLine (logs.drop i)).1.length) :
    goSlice logs (i + k) (i + (splitFirstLine (logs.drop i)).1.length) =
      (splitFirstLine (logs.drop i)).1.drop k := by
  have hsplit := splitFirstLine_fst_append_snd (logs.drop i)
  unfold goSlice
  have hdropk : logs.drop (i + k) =
      (splitFirstLine (logs.drop i)).1.drop k ++ (splitFirstLine (logs.drop i)).2 := by
    conv_lhs => rw [← List.drop_drop, ← hsplit]
    exact List.drop_append_of_le_length hk
  rw [hdropk]
  have harith : i + (splitFirstLine (logs.drop i)).1.length - (i + k) =
      ((splitFirstLine (logs.drop i)).1.drop k).length := by
    simp only [List.length_drop]
    omega
  rw [harith, List.take_append_of_le_length (Nat.le_refl _), List.take_length]

theorem stripNameLine_length (t L : List Char) : (stripNameLine t L).length ≤ L.length := by
  unfold stripNameLine
  by_cases h : t <+: L
  · rw [if_pos h]
    simp only [List.length_drop]
    omega
  · rw [if_neg h]

theorem flatten_map_stripName_length (t : List Char) : ∀ ws : List (List Char),
    ((ws.map (stripNameLine t)).flatten).length ≤ (ws.flatten).length := by
  intro ws
  induction ws with
  | nil => simp
  | cons L rest ihw =>
    simp only [List.map_cons, List.flatten_cons, List.length_append]
    have h1 := stripNameLine_length t L
    omega

theorem removeTestNamePrefixLoop_eq {logs t : List Char} (ht : '\n' ∉ t) :
    ∀ (fuel i : Nat), logs.length - i ≤ fuel →
      t ∉ lines (logs.drop i) →
      removeTestNamePrefixLoop logs t fuel i =
        some (((lines (logs.drop i)).map (stripNameLine t)).flatten) := by
  intro fuel
  induction fuel with
  | zero =>
    intro i hfuel _
    have hdrop : logs.drop i = [] := List.drop_eq_nil_iff.mpr (by omega)
    simp [removeTestNamePrefixLoop, hdrop, lines_nil]
  | succ fuel ih =>
    intro i hfuel hnot
    by_cases hi : i ≥ logs.length
    · have hdrop : logs.drop i = [] := List.drop_eq_nil_iff.mpr (by omega)
      simp [removeTestNamePrefixLoop, hi, hdrop, lines_nil]
    · push_neg at hi
      have hsne : logs.drop i ≠ [] := by
        intro hcon
        have := List.drop_eq_nil_iff.mp hcon
        omega
      have hlines := lines_cons hsne
      have hge : i ≤ findNext logs i '\n' := findNext_ge hi (Nat.le_refl i) '\n'
      have hfuel2 : logs.length - (findNext logs i '\n' + 1) ≤ fuel := by omega
      have hnot2 : t ∉ lines (splitFirstLine (logs.drop i)).2 := by
        intro hmem
        exact hnot (by rw [hlines]; simp [hmem])
      have hfstne : (splitFirstLine (logs.drop i)).1 ≠ t := by
        intro heq
        exact hnot (by rw [hlines, heq]; simp)
      have hfstlen : (splitFirstLine (logs.drop i)).1.length ≤ (logs.drop i).length :=
        (splitFirstLine_fst_isPrefix (logs.drop i)).sublist.length_le
      have hrec := ih (findNext logs i '\n' + 1) hfuel2 (by rw [drop_findNext hi]; exact hnot2)
      rw [hlines]
      simp only [removeTestNamePrefixLoop, if_neg (by omega : ¬ i ≥ logs.length),
        List.map_cons, List.flatten_cons]
      rw [hasPrefix_eq]
      by_cases hp : t <+: logs.drop i
      · have hpfst : t <+: (splitFirstLine (logs.drop i)).1 :=
          (prefix_splitFirstLine ht).mp hp
        have hlt : t.length < (splitFirstLine (logs.drop i)).1.length := by
          rcases Nat.lt_or_ge t.length (splitFirstLine (logs.drop i)).1.length with h | h
          · exact h
          · exact absurd (hpfst.sublist.eq_of_length_le (by omega)).symm hfstne
        rw [if_pos (by simp [hp])]
        have hbound : findNext logs i '\n' + 1 = i + (splitFirstLine (logs.drop i)).1.length :=
          findNext_add_one_eq hi
        have hchecked : goSliceChecked logs (i + t.length + 1) (findNext logs i '\n' + 1) =
            some ((splitFirstLine (logs.drop i)).1.drop (t.length + 1)) := by
          rw [hbound]
          unfold goSliceChecked
          rw [if_pos (by
            constructor
            · omega
            · simp only [List.length_drop] at hfstlen ⊢
              omega)]
          rw [show i + t.length + 1 = i + (t.length + 1) by omega]
          exact congrArg some (goSlice_line_drop (by omega))
        rw [hchecked, hrec, drop_findNext hi]
        rw [show stripNameLine t (splitFirstLine (logs.drop i)).1 =
          (splitFirstLine (logs.drop i)).1.drop (t.length + 1) by
            unfold stripNameLine
            rw [if_pos hpfst]]
        rfl
      · rw [if_neg (by simp [hp])]
        rw [hrec, drop_findNext hi, goSlice_findNext hi]
        rw [show stripNameLine t (splitFirstLine (logs.drop i)).1 =
          (splitFirstLine (logs.drop i)).1 by
            unfold stripNameLine
            rw [if_neg (fun hc => hp ((prefix_splitFirstLine ht).mpr hc))]]
        rfl

/-- C8** (counterexample): `removeTestNamePrefix` strips the first
`len(T)+1` bytes from any line that merely *begins with* `T`, even when the
byte after `T` is not a space (so a line without the exact prefix
`"TestFoo "` is still modified); and on a final unterminated line equal to
the test name the Go slice `logs[i+len(T)+1 : endOfLineIdx+1]` has its low
bound past its high bound — a runtime panic (`none`), so the function does
not always return an output. -/
theorem claim_C8_counterexample :
    removeTestNamePrefix "TestFooX y\n".data "TestFoo".data = some (" y\n".data)
      ∧ ¬ ("TestFoo ".data <+: "TestFooX y\n".data)
      ∧ removeTestNamePrefix "TestFoo".data "TestFoo".data = none := by
  decide

/-- C8** (amended): for a newline-free test name `T`, provided no line of
the buffer is exactly `T` (the panicking case), `removeTestNamePrefix`
removes the first `len(T)+1` bytes (the test name plus the one following
byte, whatever it is) from every line beginning with `T`, passes every other
line through unchanged, and the output size never exceeds the input size. -/
theorem claim_C8_amended (B t : List Char) (ht : '\n' ∉ t) (hnot : t ∉ lines B) :
    removeTestNamePrefix B t = some (((lines B).map (stripNameLine t)).flatten)
      ∧ (((lines B).map (stripNameLine t)).flatten).length ≤ B.length := by
  constructor
  · rw [removeTestNamePrefix,
      removeTestNamePrefixLoop_eq ht B.length 0 (by omega) (by rw [List.drop_zero]; exact hnot)]
    rw [List.drop_zero]
  · conv_rhs => rw [← lines_flatten_self B]
    exact flatten_map_stripName_length t (lines B)

theorem claim_C8_witness :
    removeTestNamePrefix "TestFoo 1\nno prefix 2\nTestFoo 3\nno prefix 4\n".data "TestFoo".data
      = some ("1\nno prefix 2\n3\nno prefix 4\n".data) := by
  rw [(claim_C8_amended _ _ (by decide) (by decide)).1]
  decide

/-! ## Refinement: the historical `src/main.go` filter vs the superset -/

theorem filterLogsMainLoop_eq {logs t : List Char} :
    ∀ (fuel i : Nat) (prior : Bool), logs.length - i ≤ fuel →
      (∀ s ∈ lineStarts (logs.drop i), ¬ ((testFailurePrefix ++ t) <+: s)) →
      (∀ L ∈ lines (logs.drop i), max 4 t.length ≤ L.length) →
      filterLogsMainLoop logs t fuel i prior = some (filterLogsLoop logs t fuel i prior) := by
  intro fuel
  induction fuel with
  | zero =>
    intro i prior hfuel _ _
    simp [filterLogsMainLoop, filterLogsLoop]
  | succ fuel ih =>
    intro i prior hfuel hhead hlen
    by_cases hi : i ≥ logs.length
    · simp [filterLogsMainLoop, filterLogsLoop, hi]
    · push_neg at hi
      have hsne : logs.drop i ≠ [] := by
        intro hcon
        have := List.drop_eq_nil_iff.mp hcon
        omega
      have hlines := lines_cons hsne
      have hstarts := lineStarts_cons hsne
      have hge : i ≤ findNext logs i '\n' := findNext_ge hi (Nat.le_refl i) '\n'
      have hfuel2 : logs.length - (findNext logs i '\n' + 1) ≤ fuel := by omega
      have hfstlen : max 4 t.length ≤ (splitFirstLine (logs.drop i)).1.length := by
        refine hlen _ ?_
        rw [hlines]; simp
      have hfstle : (splitFirstLine (logs.drop i)).1.length ≤ (logs.drop i).length :=
        (splitFirstLine_fst_isPrefix (logs.drop i)).sublist.length_le
      have hlenbd : i + (splitFirstLine (logs.drop i)).1.length ≤ logs.length := by
        simp only [List.length_drop] at hfstle
        omega
      have hheadrec : ∀ s ∈ lineStarts (logs.drop (findNext logs i '\n' + 1)),
          ¬ ((testFailurePrefix ++ t) <+: s) := by
        rw [drop_findNext hi]
        intro s hs
        refine hhead s ?_
        rw [hstarts]; simp [hs]
      have hlenrec : ∀ L ∈ lines (logs.drop (findNext logs i '\n' + 1)), max 4 t.length ≤ L.length := by
        rw [drop_findNext hi]
        intro L hL
        refine hlen L ?_
        rw [hlines]; simp [hL]
      have hrec1 := ih (findNext logs i '\n' + 1) true hfuel2 hheadrec hlenrec
      have hrec0 := ih (findNext logs i '\n' + 1) false hfuel2 hheadrec hlenrec
      have hrecp := ih (findNext logs i '\n' + 1) prior hfuel2 hheadrec hlenrec
      have hmain : hasPrefixMain logs i t = some (hasPrefix logs i t) :=
        hasPrefixMain_eq t logs i (by omega)
      have hfail : hasTestFailurePrefix logs i t = false := by
        rw [← Bool.not_eq_true, hasTestFailurePrefix_iff]
        refine hhead (logs.drop i) ?_
        rw [hstarts]; simp
      have htest : hasPrefixMain logs i ("Test".data) = some (hasPrefix logs i ("Test".data)) := by
        refine hasPrefixMain_eq _ logs i ?_
        have h4 : ("Test".data).length = 4 := by decide
        omega
      simp only [filterLogsMainLoop, filterLogsLoop, if_neg (by omega : ¬ i ≥ logs.length),
        hmain, hfail, Bool.or_false]
      by_cases hb : hasPrefix logs i t = true
      · rw [if_pos hb, if_pos hb, hrec1]
        rfl
      · rw [if_neg hb, if_neg hb]
        cases prior with
        | false =>
          rw [if_neg (by simp), if_neg (by simp), hrecp]
        | true =>
          rw [if_pos rfl, if_pos rfl]
          simp only [htest]
          by_cases hbt : hasPrefix logs i ("Test".data) = true
          · rw [if_pos hbt, if_pos hbt, hrec0]
          · rw [if_neg hbt, if_neg hbt, hrecp]
            rfl

/-- C9**: under the claim's side conditions — the buffer never carries the
failure-report header followed by the test name at any line start, and every
line is at least `max(4, len(T))` bytes long, so every prefix comparison of
the unchecked historical `hasPrefix` stays in bounds — the historical
`src/main.go` `filterLogs` returns normally with exactly the output (and nil
error) of the superset `src/README.md` variant: the newer behaviour strictly
includes the older one. -/
theorem claim_C9 (B t : List Char)
    (h1 : ∀ s ∈ lineStarts B, ¬ ((testFailurePrefix ++ t) <+: s))
    (h2 : ∀ L ∈ lines B, max 4 t.length ≤ L.length) :
    filterLogsMain B t = some (filterLogs B t) := by
  rw [filterLogsMain, filterLogs,
    filterLogsMainLoop_eq B.length 0 false (by omega)
      (by rw [List.drop_zero]; exact h1) (by rw [List.drop_zero]; exact h2)]
  rfl

theorem claim_C9_witness :
    (filterLogsMain "TestA 1\nTestB 1\n".data "TestA".data =
        some (filterLogs "TestA 1\nTestB 1\n".data "TestA".data))
      ∧ filterLogsMain "TestA 1\nTestB 1\n".data "TestA".data =
          some ("TestA 1\n".data, none) :=
  ⟨claim_C9 _ _ (by decide) (by decide), by decide⟩

/-- C10** (spec-modelled: `parseSummary` is absent from `src/`, only its
tests exist): the Summary Extractor is a stateless per-line filter — the
lines of its output are exactly, verbatim and in order (indentation
preserved), the lines of the input that begin with `"--- PASS:"` or
`"--- FAIL:"` after any run of leading whitespace; both test examples hold,
including the nested-subtest one returned unchanged. -/
theorem claim_C10 :
    (∀ B, lines (parseSummary B) = (lines B).filter summaryLine)
      ∧ parseSummary "--- PASS: TestAll (2788.26s)\nksjdfks\n--- FAIL: Bar".data =
          "--- PASS: TestAll (2788.26s)\n--- FAIL: Bar".data
      ∧ parseSummary
          "--- PASS: TestAll (2788.26s)\n    --- FAIL: TestAll/foo (10.11s)\n    --- PASS: TestAll/bar (10.12s)".data =
          "--- PASS: TestAll (2788.26s)\n    --- FAIL: TestAll/foo (10.11s)\n    --- PASS: TestAll/bar (10.12s)".data := by
  refine ⟨?_, by decide, by decide⟩
  intro B
  rw [parseSummary]
  exact lines_flatten (goodLines_sublist (List.filter_sublist _) (lines_good B))
